import Mathlib

/-!
Verification of the composite hierarchical model component
(`tgModel`, `src/src/core/tgModel.cpp`).

The C++ class `tgModel` is a heap-allocated tree node: it owns a
`std::vector<tgModel*> m_children` of exclusively-owned children and a
`std::vector<abstractMarker> m_markers` of value-owned markers, and
inherits a tag set from `tgTaggable`.  We embed a node together with the
subtree it owns as an inductive rose tree.  Every node carries a `ptr`
field modelling its machine address: in C++ two distinct live objects
have distinct addresses, and the only pointer operations the code
performs are equality comparisons (`pChild == this`,
`std::find` over `tgModel*` vectors), which the embedding performs on
`ptr`.  `NULL` arguments are modelled by `Option`.  Thrown
`std::invalid_argument` exceptions are modelled by `Except String`,
carrying the exact message string from the source.  The `double dt`
argument of `step` is modelled as a rational: the sole operation the
source performs on it is the exact comparison `dt <= 0.0`, which is
order-faithful on the rationals.
-/

namespace TgModelSim

/-- The `abstractMarker` payload.  The spec treats a marker as "an opaque
taggable point of interest"; nothing in `tgModel.cpp` inspects its
fields, so an opaque value with decidable equality suffices. -/
structure AbstractMarker where
  payload : Nat
  deriving DecidableEq, Repr

/-- A `tgModel` node together with the subtree it exclusively owns.
`ptr` models the node's machine address (distinct live nodes have
distinct `ptr`s), `children` is `m_children` in insertion order,
`markers` is `m_markers` in insertion order, and `tags` is the inherited
`tgTaggable` tag set (a list of opaque labels, untouched by every
operation in this file). -/
inductive TgModel : Type where
  | node (ptr : Nat) (children : List TgModel)
      (markers : List AbstractMarker) (tags : List Nat)
  deriving Repr

namespace TgModel

/-- The node's address (`this`, resp. the value of a `tgModel*`). -/
def ptr : TgModel → Nat
  | .node p _ _ _ => p

/-- The node's `m_children` vector, in insertion order. -/
def children : TgModel → List TgModel
  | .node _ cs _ _ => cs

/-- The node's `m_markers` vector, in insertion order. -/
def markers : TgModel → List AbstractMarker
  | .node _ _ ms _ => ms

/-- The node's inherited tag set. -/
def tags : TgModel → List Nat
  | .node _ _ _ ts => ts

mutual
/-- `tgModel::getDescendants` (tgModel.cpp:170-184): starts from an
empty `result`; for each child in order, pushes the child and then
appends the child's own descendants, recursively. -/
def getDescendants : TgModel → List TgModel
  | .node _ cs _ _ => getDescendantsLoop cs

/-- The `for` loop body of `tgModel::getDescendants`: for each child,
emit the child, then the child's recursively computed descendants. -/
def getDescendantsLoop : List TgModel → List TgModel
  | [] => []
  | c :: rest => (c :: getDescendants c) ++ getDescendantsLoop rest
end

mutual
/-- `tgModel::step` (tgModel.cpp:84-105): throws
`std::invalid_argument("dt is not positive")` when `dt <= 0.0`;
otherwise invokes `step(dt)` on every child, in child order.  The
embedding returns, besides the `Except` outcome (the updated subtree on
success; a thrown exception produces no updated tree, the receiver in
C++ being untouched), the trace of addresses of the nodes on which a
recursive child `step(dt)` call was invoked, in invocation order, so
that "no child is stepped on failure" and the propagation order are
observable facts of the embedding. -/
def step (m : TgModel) (dt : Rat) : List Nat × Except String TgModel :=
  if dt ≤ 0 then ([], .error "dt is not positive")
  else
    match m with
    | .node p cs ms ts =>
      match stepLoop cs dt with
      | (tr, .error e) => (tr, .error e)
      | (tr, .ok cs2) => (tr, .ok (.node p cs2 ms ts))

/-- The `for` loop of `tgModel::step`: invokes `step(dt)` on each child
in order, recording each invoked child's address followed by the trace
of its own recursive calls; a throw propagates out of the loop. -/
def stepLoop (cs : List TgModel) (dt : Rat) :
    List Nat × Except String (List TgModel) :=
  match cs with
  | [] => ([], .ok [])
  | c :: rest =>
    match step c dt with
    | (tr, .error e) => (c.ptr :: tr, .error e)
    | (tr, .ok c2) =>
      match stepLoop rest dt with
      | (tr2, .error e) => (c.ptr :: (tr ++ tr2), .error e)
      | (tr2, .ok rest2) => (c.ptr :: (tr ++ tr2), .ok (c2 :: rest2))
end

mutual
/-- `tgModel::onVisit` (tgModel.cpp:107-120): invokes `r.render(*this)`
on the receiver first, then `onVisit(r)` on every child, in child
order.  The visitor `r` is modelled by its observable effect: a state
type `σ` and the `render` action `σ → TgModel → σ`; `render` receives
the node read-only (it returns only a new visitor state, never a
tree). -/
def onVisit {σ : Type} (render : σ → TgModel → σ) : TgModel → σ → σ
  | .node p cs ms ts, s =>
    onVisitLoop render cs (render s (.node p cs ms ts))

/-- The `for` loop of `tgModel::onVisit`: propagates the visitor to
each child in order, threading the visitor state. -/
def onVisitLoop {σ : Type} (render : σ → TgModel → σ) :
    List TgModel → σ → σ
  | [], s => s
  | c :: rest, s => onVisitLoop render rest (onVisit render c s)
end

/-- `tgModel::addChild` (tgModel.cpp:122-150): rejects a `NULL`
candidate, then a candidate equal to `this` (pointer comparison), then
a candidate found (pointer comparison) among the receiver's current
descendants, each with `std::invalid_argument` carrying the source's
message; otherwise appends the candidate to `m_children`. -/
def addChild (m : TgModel) (pChild : Option TgModel) :
    Except String TgModel :=
  match pChild with
  | none => .error "child is NULL"
  | some c =>
    if c.ptr = m.ptr then .error "child is this object"
    else if c.ptr ∈ (m.getDescendants).map TgModel.ptr then
      .error "child is already a descendant"
    else .ok (.node m.ptr (m.children ++ [c]) m.markers m.tags)

mutual
/-- `tgModel::teardown` (tgModel.cpp:68-82): for each child in order,
recursively tears it down and then destroys it; afterwards clears
`m_children` and `m_markers`.  Tags are untouched.  In the embedding
the torn-down children are computed and then discarded, mirroring
teardown-followed-by-delete. -/
def teardown : TgModel → TgModel
  | .node p cs _ ts =>
    let _ := teardownLoop cs
    .node p [] [] ts

/-- The `for` loop of `tgModel::teardown`: tears down each child in
order (the results are deleted by the caller). -/
def teardownLoop : List TgModel → List TgModel
  | [] => []
  | c :: rest => teardown c :: teardownLoop rest
end

/-- `tgModel::getMarkers` (tgModel.cpp:233-235): returns `m_markers`. -/
def getMarkers (m : TgModel) : List AbstractMarker :=
  m.markers

/-- `tgModel::addMarker` (tgModel.cpp:237-239): receives the marker BY
VALUE (`abstractMarker a`) — the caller's object is copied into the
parameter — and `push_back` copies that value into `m_markers`. -/
def addMarker (m : TgModel) (a : AbstractMarker) : TgModel :=
  .node m.ptr m.children (m.markers ++ [a]) m.tags

/-- `tgModel::invariant` (tgModel.cpp:241-246): despite its doc comment
listing "No child is NULL" and "No child appears more than once in the
tree", the body is `return true;`. -/
def invariant (_ : TgModel) : Bool :=
  true

end TgModel

/-- A `tgSenseable*` handle as produced by
`tgModel::getSenseableDescendants`: either a model node or a (pointer
to a) marker value. -/
inductive Senseable where
  | model (m : TgModel)
  | marker (a : AbstractMarker)

namespace TgModel

/-- `tgModel::getSenseableDescendants` (tgModel.cpp:191-231): pushes
every element of `getDescendants()` (as a `tgSenseable*`), then builds
the list of pointers to the receiver's own markers from `getMarkers()`,
then appends those marker pointers.  (The debugging `std::cout` output
has no bearing on the returned value.) -/
def getSenseableDescendants (m : TgModel) : List Senseable :=
  let myDescendants := m.getDescendants
  let mySenseableDescendants :=
    myDescendants.foldl (fun acc d => acc ++ [Senseable.model d]) []
  let myMarkers := m.getMarkers
  let pointersToMarkers :=
    myMarkers.foldl (fun acc a => acc ++ [Senseable.marker a]) []
  pointersToMarkers.foldl (fun acc x => acc ++ [x]) mySenseableDescendants

end TgModel

/-- The strict-descendant relation: `d` is reachable from `m` by one or
more child-ownership edges. -/
inductive IsStrictDescendant : TgModel → TgModel → Prop where
  | child {d m : TgModel} : d ∈ m.children → IsStrictDescendant d m
  | trans {d c m : TgModel} : c ∈ m.children → IsStrictDescendant d c →
      IsStrictDescendant d m

mutual
/-- The descendant sequence exactly as the spec words it (§4.3): "for
each child in order: emit the child, then emit that child's own
descendants, before moving to the next sibling child".  Spec-side
definition, to be compared with the source-side `getDescendants`. -/
def specDescendants : TgModel → List TgModel
  | .node _ cs _ _ => specDescendantsOfChildren cs

/-- Spec-side companion of `specDescendants`, iterating over the
children in order. -/
def specDescendantsOfChildren : List TgModel → List TgModel
  | [] => []
  | c :: rest => c :: (specDescendants c ++ specDescendantsOfChildren rest)
end

/-- The concrete scenario of spec §8: root `R` (address 0) with child
`A` (address 1), which has child `B` (address 2); `R` owns marker `M1`. -/
def demoTree : TgModel :=
  .node 0 [.node 1 [.node 2 [] [] []] [] []] [⟨1⟩] []

/-- A node (address 0) whose single child is the node at address 1. -/
def exA : TgModel :=
  .node 0 [.node 1 [] [] []] [] []

/-- The node at address 1, a childless leaf: the sole child of `exA`. -/
def exB : TgModel :=
  .node 1 [] [] []

/-- A state violating the structural checks documented (but not
implemented) in `tgModel::invariant`: the same node (address 1) appears
twice among the children. -/
def dupChildTree : TgModel :=
  .node 0 [.node 1 [] [] [], .node 1 [] [] []] [] []

namespace TgModel

theorem children_node (p : Nat) (cs : List TgModel)
    (ms : List AbstractMarker) (ts : List Nat) :
    (TgModel.node p cs ms ts).children = cs :=
  rfl

theorem sizeOf_lt_of_mem_children {c m : TgModel} (h : c ∈ m.children) :
    sizeOf c < sizeOf m := by
  match m with
  | .node p cs ms ts =>
    rw [children_node] at h
    have h1 : sizeOf c < sizeOf cs := List.sizeOf_lt_of_mem h
    simp only [node.sizeOf_spec]
    omega

/-- Strong induction over the ownership tree: to prove `P` of a node it
suffices to assume `P` of each child. -/
theorem strongInduction {P : TgModel → Prop}
    (ih : ∀ m : TgModel, (∀ c, c ∈ m.children → P c) → P m) :
    ∀ m, P m := by
  have key : ∀ (n : Nat) (m : TgModel), sizeOf m ≤ n → P m := by
    intro n
    induction n with
    | zero =>
      intro m hm
      match m with
      | .node p cs ms ts =>
        simp only [node.sizeOf_spec] at hm
        omega
    | succ n ihn =>
      intro m hm
      refine ih m (fun c hc => ihn c ?_)
      have := sizeOf_lt_of_mem_children hc
      omega
  exact fun m => key (sizeOf m) m le_rfl

theorem getDescendants_node (p : Nat) (cs : List TgModel)
    (ms : List AbstractMarker) (ts : List Nat) :
    (TgModel.node p cs ms ts).getDescendants = getDescendantsLoop cs :=
  rfl

theorem getDescendantsLoop_nil : getDescendantsLoop [] = [] :=
  rfl

theorem getDescendantsLoop_cons (c : TgModel) (rest : List TgModel) :
    getDescendantsLoop (c :: rest) =
      (c :: c.getDescendants) ++ getDescendantsLoop rest :=
  rfl

theorem mem_getDescendantsLoop {d : TgModel} {cs : List TgModel} :
    d ∈ getDescendantsLoop cs ↔
      ∃ c ∈ cs, d = c ∨ d ∈ c.getDescendants := by
  induction cs with
  | nil => simp [getDescendantsLoop_nil]
  | cons c rest ihr =>
    rw [getDescendantsLoop_cons]
    simp only [List.mem_append, List.mem_cons, ihr]
    constructor
    · rintro ((heq | hd) | ⟨c', hc', hd'⟩)
      · exact ⟨c, Or.inl rfl, Or.inl heq⟩
      · exact ⟨c, Or.inl rfl, Or.inr hd⟩
      · exact ⟨c', Or.inr hc', hd'⟩
    · rintro ⟨c', (rfl | hc'), hd'⟩
      · exact Or.inl hd'
      · exact Or.inr ⟨c', hc', hd'⟩

/-- Membership in `getDescendants` is exactly the strict-descendant
relation. -/
theorem mem_getDescendants_iff :
    ∀ m d : TgModel, d ∈ m.getDescendants ↔ IsStrictDescendant d m := by
  have main : ∀ m : TgModel,
      (∀ d : TgModel, d ∈ m.getDescendants ↔ IsStrictDescendant d m) := by
    apply strongInduction
    intro m ih d
    match m with
    | .node p cs ms ts =>
      rw [getDescendants_node, mem_getDescendantsLoop]
      constructor
      · rintro ⟨c, hc, (rfl | hd)⟩
        · exact .child (by rw [children_node]; exact hc)
        · exact .trans (m := .node p cs ms ts)
            (by rw [children_node]; exact hc)
            ((ih c (by rw [children_node]; exact hc) d).mp hd)
      · intro h
        cases h with
        | child hmem =>
          rw [children_node] at hmem
          exact ⟨d, hmem, Or.inl rfl⟩
        | trans hc hd =>
          rename_i c'
          rw [children_node] at hc
          exact ⟨c', hc, Or.inr ((ih c' (by rw [children_node]; exact hc) d).mpr hd)⟩
  exact main

theorem getDescendants_eq_specDescendants :
    ∀ m : TgModel, m.getDescendants = specDescendants m := by
  apply strongInduction
  intro m ih
  match m with
  | .node p cs ms ts =>
    rw [getDescendants_node]
    show getDescendantsLoop cs = specDescendantsOfChildren cs
    have loopEq : ∀ cs' : List TgModel,
        (∀ c ∈ cs', c.getDescendants = specDescendants c) →
        getDescendantsLoop cs' = specDescendantsOfChildren cs' := by
      intro cs' h
      induction cs' with
      | nil => rfl
      | cons c rest ihr =>
        rw [getDescendantsLoop_cons, specDescendantsOfChildren]
        rw [h c (List.mem_cons_self c rest),
          ihr (fun c' hc' => h c' (List.mem_cons_of_mem c hc'))]
        simp
    exact loopEq cs (fun c hc => ih c (by rw [children_node]; exact hc))

theorem step_of_nonpos (m : TgModel) {dt : Rat} (h : dt ≤ 0) :
    step m dt = ([], .error "dt is not positive") := by
  match m with
  | .node p cs ms ts =>
    rw [step, if_pos h]

theorem stepLoop_of_ok {dt : Rat} :
    ∀ cs : List TgModel,
      (∀ c ∈ cs, step c dt = ((c.getDescendants).map ptr, .ok c)) →
      stepLoop cs dt = ((getDescendantsLoop cs).map ptr, .ok cs) := by
  intro cs h
  induction cs with
  | nil => rw [stepLoop, getDescendantsLoop_nil]; rfl
  | cons c rest ihr =>
    rw [stepLoop, h c (List.mem_cons_self c rest),
      ihr (fun c' hc' => h c' (List.mem_cons_of_mem c hc')),
      getDescendantsLoop_cons]
    simp

theorem step_of_pos {dt : Rat} (h : 0 < dt) :
    ∀ m : TgModel, step m dt = ((m.getDescendants).map ptr, .ok m) := by
  apply strongInduction
  intro m ih
  match m with
  | .node p cs ms ts =>
    have hloop := stepLoop_of_ok cs
      (fun c hc => ih c (by rw [children_node]; exact hc))
    rw [step, if_neg (not_le.mpr h), hloop, getDescendants_node]

theorem onVisit_node {σ : Type} (render : σ → TgModel → σ) (p : Nat)
    (cs : List TgModel) (ms : List AbstractMarker) (ts : List Nat) (s : σ) :
    onVisit render (.node p cs ms ts) s =
      onVisitLoop render cs (render s (.node p cs ms ts)) := by
  rw [onVisit]

theorem onVisitLoop_eq_foldl {σ : Type} (render : σ → TgModel → σ) :
    ∀ cs : List TgModel,
      (∀ c ∈ cs, ∀ s' : σ,
        onVisit render c s' = (c :: c.getDescendants).foldl render s') →
      ∀ s : σ, onVisitLoop render cs s = (getDescendantsLoop cs).foldl render s := by
  intro cs h
  induction cs with
  | nil => intro s; rw [onVisitLoop, getDescendantsLoop_nil]; rfl
  | cons c rest ihr =>
    intro s
    rw [onVisitLoop, h c (List.mem_cons_self c rest),
      ihr (fun c' hc' => h c' (List.mem_cons_of_mem c hc')),
      getDescendantsLoop_cons, List.foldl_append]

theorem onVisit_eq_foldl {σ : Type} (render : σ → TgModel → σ) :
    ∀ (m : TgModel) (s : σ),
      onVisit render m s = (m :: m.getDescendants).foldl render s := by
  apply strongInduction
  intro m ih s
  match m with
  | .node p cs ms ts =>
    rw [onVisit_node, getDescendants_node,
      onVisitLoop_eq_foldl render cs
        (fun c hc => ih c (by rw [children_node]; exact hc))]
    rfl

theorem foldl_push_map {α β : Type} (f : α → β) :
    ∀ (l : List α) (acc : List β),
      l.foldl (fun acc x => acc ++ [f x]) acc = acc ++ l.map f := by
  intro l
  induction l with
  | nil => intro acc; simp
  | cons x rest ihr => intro acc; simp [ihr]

theorem foldl_push_id {α : Type} :
    ∀ (l acc : List α), l.foldl (fun acc x => acc ++ [x]) acc = acc ++ l := by
  intro l
  induction l with
  | nil => intro acc; simp
  | cons x rest ihr => intro acc; simp [ihr]

/-- Unfolding of `addChild` on a non-`NULL` candidate. -/
theorem addChild_some_eq (m c : TgModel) :
    m.addChild (some c) =
      (if c.ptr = m.ptr then Except.error "child is this object"
       else if c.ptr ∈ (m.getDescendants).map TgModel.ptr then
         Except.error "child is already a descendant"
       else
         Except.ok (.node m.ptr (m.children ++ [c]) m.markers m.tags)) :=
  rfl

theorem teardown_node (p : Nat) (cs : List TgModel)
    (ms : List AbstractMarker) (ts : List Nat) :
    (TgModel.node p cs ms ts).teardown = .node p [] [] ts :=
  rfl

/-- C2: `step(dt)` raises the `InvalidArgument` failure exactly when
`dt ≤ 0`; the check precedes the recursive descent, so on failure no
child's `step` is invoked (the invocation trace is empty) and no
updated subtree is produced (the receiver is untouched); when `dt > 0`
the call is propagated to every child in child order — the invocation
trace is exactly the descendant sequence, by address — and the whole
subtree is returned unchanged. -/
theorem step_validates_before_descending (m : TgModel) (dt : Rat) :
    ((∃ e, (step m dt).2 = Except.error e) ↔ dt ≤ 0) ∧
    (dt ≤ 0 → step m dt = ([], Except.error "dt is not positive")) ∧
    (0 < dt → step m dt =
      ((m.getDescendants).map TgModel.ptr, Except.ok m)) := by
  refine ⟨⟨?_, ?_⟩, fun h => step_of_nonpos m h, fun h => step_of_pos h m⟩
  · rintro ⟨e, he⟩
    by_contra hpos
    rw [step_of_pos (lt_of_not_ge hpos) m] at he
    exact Except.noConfusion he
  · intro h
    rw [step_of_nonpos m h]
    exact ⟨_, rfl⟩

/-- Witness for C2: on the §8 scenario tree, `step(-1)` fails with the
exact message and an empty invocation trace, while `step(1)` succeeds,
stepping the descendants at addresses 1 and 2 in order and leaving the
tree unchanged. -/
theorem step_validates_before_descending_witness :
    ((-1 : Rat) ≤ 0 ∧
      step demoTree (-1) = ([], Except.error "dt is not positive")) ∧
    (0 < (1 : Rat) ∧
      (demoTree.getDescendants).map TgModel.ptr = [1, 2] ∧
      step demoTree 1 = ([1, 2], Except.ok demoTree)) :=
  ⟨⟨by norm_num,
    (step_validates_before_descending demoTree (-1)).2.1 (by norm_num)⟩,
   ⟨by norm_num, rfl,
    (step_validates_before_descending demoTree 1).2.2 (by norm_num)⟩⟩

/-- C3: `addChild(candidate)` fails exactly when the candidate is
`NULL`, is the receiver itself, or already occurs (by address) among
the receiver's current descendants, computed before any mutation; a
failing call produces no updated tree (the receiver's children list is
untouched), and a successful call returns the receiver with the
candidate appended, so its children list is non-empty and ends with
the candidate. -/
theorem addChild_error_conditions (m c : TgModel) :
    (m.addChild none = Except.error "child is NULL") ∧
    ((∃ e, m.addChild (some c) = Except.error e) ↔
      (c.ptr = m.ptr ∨ c.ptr ∈ (m.getDescendants).map TgModel.ptr)) ∧
    (c.ptr ≠ m.ptr → c.ptr ∉ (m.getDescendants).map TgModel.ptr →
      m.addChild (some c) =
        Except.ok (.node m.ptr (m.children ++ [c]) m.markers m.tags)) ∧
    (∀ m' : TgModel, m.addChild (some c) = Except.ok m' →
      m'.children = m.children ++ [c] ∧ m'.children ≠ [] ∧
      m'.children.getLast? = some c) := by
  refine ⟨rfl, ?_, ?_, ?_⟩
  · rw [addChild_some_eq]
    split_ifs with h1 h2
    · exact ⟨fun _ => Or.inl h1, fun _ => ⟨_, rfl⟩⟩
    · exact ⟨fun _ => Or.inr h2, fun _ => ⟨_, rfl⟩⟩
    · constructor
      · rintro ⟨e, he⟩
        exact he.elim
      · rintro (h | h)
        · exact absurd h h1
        · exact absurd h h2
  · intro h1 h2
    rw [addChild_some_eq, if_neg h1, if_neg h2]
  · intro m' hm'
    rw [addChild_some_eq] at hm'
    split_ifs at hm' with h1 h2
    injection hm' with h
    subst h
    exact ⟨children_node .., by simp [children_node],
      by rw [children_node]; exact List.getLast?_concat _⟩

/-- Witness for C3: adding the fresh node at address 3 to the §8
scenario tree succeeds and appends it. -/
theorem addChild_error_conditions_witness :
    (TgModel.node 3 [] [] []).ptr ≠ demoTree.ptr ∧
    (TgModel.node 3 [] [] []).ptr ∉
      (demoTree.getDescendants).map TgModel.ptr ∧
    demoTree.addChild (some (.node 3 [] [] [])) =
      Except.ok (.node demoTree.ptr
        (demoTree.children ++ [.node 3 [] [] []])
        demoTree.markers demoTree.tags) :=
  ⟨by decide, by decide,
   (addChild_error_conditions demoTree (.node 3 [] [] [])).2.2.1
     (by decide) (by decide)⟩

/-- C4: `getDescendants()` is exactly the spec's pre-order-by-child,
depth-first descendant sequence (spec-worded recursion
`specDescendants`), its members are exactly the strict descendants, and
a childless node yields the empty sequence.  The operation is a total
pure Lean function, which is the embedding of "never fails" and "does
not mutate any node". -/
theorem getDescendants_preorder (m : TgModel) :
    m.getDescendants = specDescendants m ∧
    (∀ d : TgModel, d ∈ m.getDescendants ↔ IsStrictDescendant d m) ∧
    (m.children = [] → m.getDescendants = []) := by
  refine ⟨getDescendants_eq_specDescendants m,
    fun d => mem_getDescendants_iff m d, ?_⟩
  intro h
  match m with
  | .node p cs ms ts =>
    rw [children_node] at h
    subst h
    rfl

/-- Witness for C4: a childless node has no children and an empty
descendant sequence. -/
theorem getDescendants_preorder_witness :
    (TgModel.node 7 [] [] []).children = [] ∧
    (TgModel.node 7 [] [] []).getDescendants = [] :=
  ⟨rfl, (getDescendants_preorder (.node 7 [] [] [])).2.2 rfl⟩

/-- C5: `onVisit(visitor)` renders the receiver first and then
propagates to each child in child order: for every visitor (any state
type `σ` with render action), the run equals a fold of the render
action along the list `receiver :: getDescendants receiver`, so the
strict descendants are visited in exactly the `getDescendants()` order;
and when the subtree's node addresses are distinct, every node of the
subtree (receiver included) occurs in the visit sequence exactly
once. -/
theorem onVisit_visits_preorder {σ : Type} (render : σ → TgModel → σ)
    (m : TgModel) (s : σ) :
    onVisit render m s = (m :: m.getDescendants).foldl render s ∧
    (((m :: m.getDescendants).map TgModel.ptr).Nodup →
      ∀ d ∈ m :: m.getDescendants,
        ((m :: m.getDescendants).map TgModel.ptr).count d.ptr = 1) := by
  refine ⟨onVisit_eq_foldl render m s, ?_⟩
  intro hnd d hd
  exact List.count_eq_one_of_mem hnd (List.mem_map_of_mem _ hd)

/-- Witness for C5: a trace-collecting visitor on the §8 scenario tree
records the addresses `[0, 1, 2]` — receiver first, then the
descendants in `getDescendants()` order — and the receiver is visited
exactly once. -/
theorem onVisit_visits_preorder_witness :
    onVisit (fun (acc : List Nat) (n : TgModel) => acc ++ [n.ptr])
      demoTree [] = [0, 1, 2] ∧
    ((demoTree :: demoTree.getDescendants).map TgModel.ptr).Nodup ∧
    ((demoTree :: demoTree.getDescendants).map TgModel.ptr).count
      demoTree.ptr = 1 := by
  refine ⟨?_, by decide, ?_⟩
  · exact (onVisit_visits_preorder
      (fun (acc : List Nat) (n : TgModel) => acc ++ [n.ptr])
      demoTree []).1.trans rfl
  · exact (onVisit_visits_preorder
      (fun (acc : List Nat) (n : TgModel) => acc ++ [n.ptr])
      demoTree []).2 (by decide) demoTree (List.mem_cons_self _ _)

/-- C6: `getSenseableDescendants()` is exactly the strict descendants
in `getDescendants()` order followed by the receiver's own markers in
insertion order; in particular no marker owned by a descendant node
occurs in it. -/
theorem getSenseableDescendants_flattening (m : TgModel) :
    m.getSenseableDescendants =
      (m.getDescendants).map Senseable.model ++
        (m.markers).map Senseable.marker := by
  show ((m.getMarkers).foldl (fun acc a => acc ++ [Senseable.marker a])
      []).foldl (fun acc x => acc ++ [x])
      ((m.getDescendants).foldl
        (fun acc d => acc ++ [Senseable.model d]) []) = _
  rw [foldl_push_map Senseable.marker, foldl_push_map Senseable.model,
    foldl_push_id]
  simp [getMarkers]

/-- C7: after `teardown()` the children and markers collections are
both empty, `getDescendants()` on the torn-down node returns the empty
sequence, and a second `teardown()` is a no-op. -/
theorem teardown_clears_and_idempotent (m : TgModel) :
    (m.teardown).children = [] ∧ (m.teardown).markers = [] ∧
    (m.teardown).getDescendants = [] ∧
    (m.teardown).teardown = m.teardown := by
  match m with
  | .node p cs ms ts =>
    rw [teardown_node]
    exact ⟨rfl, rfl, rfl, rfl⟩

/-- C8: `addMarker` receives the marker by value, so the stored marker
is the value the caller passed at call time: it is appended to the
owned list, it is what the stored slot observes, and a mutated caller
copy (any value different from the passed one) is never what the
stored slot observes. -/
theorem addMarker_copies_value (m : TgModel) (a mutated : AbstractMarker) :
    (m.addMarker a).markers = m.markers ++ [a] ∧
    (m.addMarker a).markers.getLast? = some a ∧
    (mutated ≠ a → (m.addMarker a).markers.getLast? ≠ some mutated) := by
  refine ⟨rfl, ?_, ?_⟩
  · exact List.getLast?_concat _
  · intro hne hc
    rw [show (m.addMarker a).markers = m.markers ++ [a] from rfl,
      List.getLast?_concat] at hc
    exact hne (Option.some.inj hc).symm

/-- Witness for C8: storing the marker `⟨1⟩` on the §8 scenario tree
and then changing the caller's copy to `⟨2⟩` leaves the stored value
observed as `⟨1⟩`, not `⟨2⟩`. -/
theorem addMarker_copies_value_witness :
    (⟨2⟩ : AbstractMarker) ≠ ⟨1⟩ ∧
    (demoTree.addMarker ⟨1⟩).markers.getLast? = some ⟨1⟩ ∧
    (demoTree.addMarker ⟨1⟩).markers.getLast? ≠ some ⟨2⟩ :=
  ⟨by decide, (addMarker_copies_value demoTree ⟨1⟩ ⟨2⟩).2.1,
   (addMarker_copies_value demoTree ⟨1⟩ ⟨2⟩).2.2 (by decide)⟩

/-- C9: for `dt > 0`, `step(dt)` leaves the receiver's own state
untouched: it returns the receiver itself, so the children list,
markers list and tags after the call are those before it. -/
theorem step_does_not_mutate_receiver (m : TgModel) (dt : Rat)
    (h : 0 < dt) :
    (step m dt).2 = Except.ok m ∧
    ∀ m' : TgModel, (step m dt).2 = Except.ok m' →
      m'.children = m.children ∧ m'.markers = m.markers ∧
        m'.tags = m.tags := by
  have hs := step_of_pos h m
  refine ⟨by rw [hs], ?_⟩
  intro m' hm'
  rw [hs] at hm'
  have : m = m' := Except.ok.inj hm'
  subst this
  exact ⟨rfl, rfl, rfl⟩

/-- Witness for C9: stepping the §8 scenario tree by `dt = 2` returns
it unchanged. -/
theorem step_does_not_mutate_receiver_witness :
    0 < (2 : Rat) ∧ (step demoTree 2).2 = Except.ok demoTree :=
  ⟨by norm_num,
   (step_does_not_mutate_receiver demoTree 2 (by norm_num)).1⟩

/-- C10: `invariant()` returns `true` on every node state — so every
`assert(invariant())` postcondition in the source succeeds vacuously —
and in particular it is still `true` on a state that violates the
documented "no child appears more than once in the tree" check (the
same address occurring twice among the descendants). -/
theorem invariant_always_true :
    (∀ m : TgModel, invariant m = true) ∧
    invariant dupChildTree = true ∧
    ¬ ((dupChildTree.getDescendants).map TgModel.ptr).Nodup := by
  exact ⟨fun m => rfl, rfl, by decide⟩

/-- Counterexample to C1 as stated: `exB` (address 1) is a strict
descendant of `exA` (address 0), yet `addChild(exA)` on `exB` does not
fail — it succeeds and appends `exA` (an ancestor) to `exB`'s
children, changing the tree (and, on the C++ heap, creating a cycle):
the code only rejects a candidate already among the *receiver's*
descendants, not a receiver that is among the candidate's. -/
theorem addChild_ancestor_not_rejected :
    IsStrictDescendant exB exA ∧
    exB.addChild (some exA) = Except.ok (.node 1 [exA] [] []) := by
  constructor
  · exact .child (List.mem_singleton.mpr rfl)
  · rfl

/-- C1 (amended): for nodes with distinct addresses, if B is a strict
descendant of A then `addChild(B)` on A — the candidate already
occurring among the receiver's descendants — fails with the
duplicate/cyclic `InvalidArgument` error and produces no updated tree;
the converse direction (adding the ancestor A to the descendant B) is
not rejected. -/
theorem addChild_existing_descendant_rejected (A B : TgModel)
    (h1 : IsStrictDescendant B A) (h2 : B.ptr ≠ A.ptr) :
    A.addChild (some B) = Except.error "child is already a descendant" := by
  have hmem : B.ptr ∈ (A.getDescendants).map TgModel.ptr :=
    List.mem_map_of_mem _ ((mem_getDescendants_iff A B).mpr h1)
  rw [addChild_some_eq, if_neg h2, if_pos hmem]

/-- Witness for the amended C1: re-adding `exA`'s existing descendant
`exB` to `exA` fails with the duplicate/cyclic error. -/
theorem addChild_existing_descendant_rejected_witness :
    exA.addChild (some exB) =
      Except.error "child is already a descendant" :=
  addChild_existing_descendant_rejected exA exB
    (.child (List.mem_singleton.mpr rfl)) (by decide)

end TgModel

end TgModelSim
